import Mathlib

/-!
Verification of `postProcess/make_mp4.py`: a script that assembles numbered
PNG frames into an MP4 by invoking ffmpeg.  We shallowly embed the script's
pure logic (filename-scheme inference, candidate enumeration, sequence
extraction, gap detection) and its linear control flow, and prove the
specified properties about it.

Modelling notes, matching the Python source:
 - Strings are Lean `String`s (lists of Unicode code points); Python's
   lexicographic `sorted` is modelled by insertion sort on `String.le`,
   which is the same code-point lexicographic order.
 - The regex `^(.*?)(\d+)\.png$` with `re.IGNORECASE` (source line 29) is
   modelled by `pngMatchAux`: `.*?` is non-greedy, so the engine tries to
   extend the prefix one character at a time, at each position attempting
   a (greedy) run of decimal digits followed by the literal extension at
   the end of the string.  Since no digit can be followed by a shorter
   digit run that reaches `.`, the greedy digit run needs no backtracking.
   `.` does not match a newline, so a prefix containing `'\n'` aborts the
   match.  Digits are modelled as ASCII `0`-`9` and case-insensitivity as
   ASCII case folding, which agrees with Python on all filenames at issue.
   `$` is modelled as end-of-string; candidates always end in `.png`/`.PNG`
   (they passed the suffix filter), where the two agree.
 - The re-match `^{re.escape(prefix)}(\d+)\.png$` with `re.IGNORECASE`
   (source line 83) is modelled by `matchDigitsAux`: the escaped prefix is
   matched literally but case-insensitively, then digits and extension as
   above.
-/

/-- Decimal digit value of an ASCII digit character (models `int` on a
digit string, one step of Horner evaluation). -/
def digitVal (c : Char) : Nat := c.toNat - '0'.toNat

/-- `int(m.group(1))`: numeric value of a decimal digit string. -/
def digitsVal (d : List Char) : Nat :=
  d.foldl (fun acc c => 10 * acc + digitVal c) 0

/-- The literal extension `\.png` under `re.IGNORECASE`: exactly the four
characters `.` `p/P` `n/N` `g/G`. -/
def isPngExt : List Char → Bool
  | [c1, c2, c3, c4] =>
    (c1 == '.') && (c2 == 'p' || c2 == 'P') && (c3 == 'n' || c3 == 'N') &&
      (c4 == 'g' || c4 == 'G')
  | _ => false

/-- Model of `re.match(r"^(.*?)(\d+)\.png$", s, re.IGNORECASE)` (source
line 29, `infer_padding_and_prefix`).  `acc` is the reversed prefix the
non-greedy `.*?` has consumed so far.  At each position we first try
`(\d+)\.png$` (greedy digit run, then the extension ending the string);
on failure we let `.*?` consume one more character, which must not be a
newline. -/
def pngMatchAux : List Char → List Char → Option (List Char × List Char)
  | _, [] => none
  | acc, c :: cs =>
    if isPngExt ((c :: cs).drop ((c :: cs).takeWhile Char.isDigit).length) = true ∧
        (c :: cs).takeWhile Char.isDigit ≠ [] then
      some (acc.reverse, (c :: cs).takeWhile Char.isDigit)
    else if c = '\n' then none
    else pngMatchAux (c :: acc) cs

/-- `r.match(f.name)` for the inference regex: on success returns the
captured `(prefix, digit run)` pair. -/
def pngMatch (s : String) : Option (String × String) :=
  (pngMatchAux [] s.data).map fun pd => (String.mk pd.1, String.mk pd.2)

/-- Python's `<` on strings (code-point lexicographic), phrased as the
reflexive order used by `sorted`: `strLe a b` is definitionally `a ≤ b`
for Lean strings, spelled on the underlying character lists so that it
evaluates by kernel reduction. -/
def strLe (a b : String) : Prop := ¬ b.data < a.data

instance strLeDec : DecidableRel strLe := fun a b =>
  instDecidableNot (p := b.data < a.data)

/-- The loop body of `infer_padding_and_prefix` (source lines 30-35): scan
the (already sorted) candidates and return prefix and digit count of the
first match; `none` models the `RuntimeError` (InferenceError) at line 36. -/
def inferGo : List String → Option (String × Nat)
  | [] => none
  | f :: rest =>
    match pngMatch f with
    | some pd => some (pd.1, pd.2.length)
    | none => inferGo rest

/-- `infer_padding_and_prefix(files)` (source lines 23-37; the spec's
`infer_scheme`): sort the candidate names and take the first one matching
`^(.*?)(\d+)\.png$`, returning the captured prefix and the digit count. -/
def infer_scheme (files : List String) : Option (String × Nat) :=
  inferGo (List.insertionSort strLe files)

/-- Case-insensitive character comparison, modelling how `re.IGNORECASE`
matches a literal (escaped) pattern character against a subject character. -/
def ciCharEq (a b : Char) : Bool := a.toLower == b.toLower

/-- Model of `num_re.match(f.name)` where
`num_re = re.compile(rf"^{re.escape(prefix)}(\d+)\.png$", re.IGNORECASE)`
(source lines 83-88).  First argument: remaining prefix pattern; second:
remaining subject.  Returns the captured digit run. -/
def matchDigitsAux : List Char → List Char → Option (List Char)
  | [], l =>
    if isPngExt (l.drop (l.takeWhile Char.isDigit).length) = true ∧
        l.takeWhile Char.isDigit ≠ [] then
      some (l.takeWhile Char.isDigit)
    else none
  | _ :: _, [] => none
  | a :: ps, c :: cs => if ciCharEq a c = true then matchDigitsAux ps cs else none

/-- The digit-run capture of the re-match against a candidate name. -/
def matchDigits (pfx s : String) : Option (List Char) :=
  matchDigitsAux pfx.data s.data

/-- `int(m.group(1))` for a candidate that re-matches (source line 88). -/
def matchNum (pfx s : String) : Option Nat :=
  (matchDigits pfx s).map digitsVal

/-- Source lines 83-89 (the spec's `validate_and_extract_sequence`):
re-match every candidate, keep the integer values of the matches, sort
ascending (`nums.sort()`). -/
def validate_and_extract_sequence (pfx : String) (pngs : List String) : List Nat :=
  List.insertionSort (fun a b : Nat => a ≤ b) (pngs.filterMap (matchNum pfx))

/-- The adjacent pairs `(a, b)` of `zip(nums, nums[1:])` with `b != a+1`
(source line 91). -/
def gapPairs (nums : List Nat) : List (Nat × Nat) :=
  (nums.zip nums.tail).filter fun ab => decide (ab.2 ≠ ab.1 + 1)

/-- `gaps = [b for a,b in zip(nums, nums[1:]) if b != a+1]` (source line 91). -/
def gaps (nums : List Nat) : List Nat :=
  (gapPairs nums).map Prod.snd

/-- Whether the `[WARN] Detected gaps...` message is printed (source lines
90-93): only when at least two numbers exist and some gap was found. -/
def gapWarning (nums : List Nat) : Bool :=
  if 2 ≤ nums.length then decide (gaps nums ≠ []) else false

/-- `pattern = f"{prefix}%0{pad}d.png"` (source line 95; the spec's
`build_pattern`). -/
def build_pattern (pfx : String) (pad : Nat) : String :=
  pfx ++ "%0" ++ toString pad ++ "d.png"

/-- `pathlib.PurePath.suffix` of a final path component: the substring
from the last `.`, unless that `.` is the first or the last character of
the name (then the suffix is empty).  Implemented by scanning the reversed
name for its last dot. -/
def revSuffixAux : List Char → List Char → Option (List Char)
  | _, [] => none
  | acc, c :: rest =>
    if c = '.' then
      if acc.isEmpty || rest.isEmpty then none else some ('.' :: acc)
    else revSuffixAux (c :: acc) rest

/-- `Path(name).suffix` for a single path component. -/
def pathSuffix (name : String) : String :=
  match revSuffixAux [] name.data.reverse with
  | some l => String.mk l
  | none => ""

/-- `str.lower()`, ASCII case folding. -/
def toLowerStr (s : String) : String := String.mk (s.data.map Char.toLower)

/-- Number of decimal digits of a frame number as written without padding
(the spec's "number of digits in the largest observed frame number"). -/
def digitCount (n : Nat) : Nat := if n = 0 then 1 else Nat.log 10 n + 1

/-- The command-line arguments relevant to scheme resolution
(`--prefix`, `--pad`; source lines 46-49, both default `None`). -/
structure Args where
  pfxArg : Option String
  padArg : Option Nat

/-- The environment a run observes: whether the input directory exists,
its entries' names, whether ffmpeg is on the path, the encoder's exit
code, and the state of the declared output path after the encoder ran. -/
structure Env where
  indirExists : Bool
  entries : List String
  ffmpegPresent : Bool
  encExit : Int
  outExists : Bool
  outSize : Nat

/-- The observable outcome of one run of `main`. -/
inductive RunResult where
  | notFound
  | emptyInput
  | toolMissing
  | inferenceError
  | encodeError (code : Int)
  | outputVerificationError
  | ok
deriving DecidableEq

/-- What a run did: final result, whether `shutil.which("ffmpeg")` was
consulted, how many times the encoder was executed, whether the gap
warning was printed, whether the `[OK]` success message was printed. -/
structure RunOutcome where
  result : RunResult
  ffmpegChecked : Bool
  encoderRuns : Nat
  warnedGaps : Bool
  successPrinted : Bool
deriving DecidableEq

/-- `pngs = sorted([f for f in indir.iterdir() if f.suffix.lower()==".png"])`
(source line 67). -/
def pngsOf (env : Env) : List String :=
  List.insertionSort strLe
    (env.entries.filter fun f => decide (toLowerStr (pathSuffix f) = ".png"))

/-- Source lines 76-79: infer the scheme unless BOTH `--prefix` and
`--pad` were supplied. -/
def resolveScheme (args : Args) (pngs : List String) : Option (String × Nat) :=
  if args.pfxArg = none ∨ args.padArg = none then infer_scheme pngs
  else some (args.pfxArg.getD "", args.padArg.getD 0)

/-- Source lines 99-120: run the encoder once (`subprocess.run`), then
either fail with the encoder's exit code (`EncodeError`, line 115), or
verify the output and print `[OK]` (line 118) or fail with
`OutputVerificationError` (line 120).  `warned` records whether the gap
warning was printed earlier. -/
def encodeStage (env : Env) (warned : Bool) : RunOutcome :=
  if env.encExit ≠ 0 then
    ⟨RunResult.encodeError env.encExit, true, 1, warned, false⟩
  else if env.outExists = true ∧ 0 < env.outSize then
    ⟨RunResult.ok, true, 1, warned, true⟩
  else
    ⟨RunResult.outputVerificationError, true, 1, warned, false⟩

/-- `main()` (source lines 39-120): the linear pipeline
directory check → enumeration → ffmpeg check → scheme resolution →
sequence extraction and gap warning → one encoder run → output check. -/
def runMain (args : Args) (env : Env) : RunOutcome :=
  if env.indirExists = false then
    ⟨RunResult.notFound, false, 0, false, false⟩
  else if pngsOf env = [] then
    ⟨RunResult.emptyInput, false, 0, false, false⟩
  else if env.ffmpegPresent = false then
    ⟨RunResult.toolMissing, true, 0, false, false⟩
  else
    match resolveScheme args (pngsOf env) with
    | none => ⟨RunResult.inferenceError, true, 0, false, false⟩
    | some pfxPad =>
      encodeStage env (gapWarning (validate_and_extract_sequence pfxPad.1 (pngsOf env)))

example : pngMatch "frame-00042.png" = some ("frame-", "00042") := by decide
example : pngMatch "a1b2.png" = some ("a1b", "2") := by decide
example : pngMatch "a.png" = none := by decide
example : infer_scheme ["b-02.png", "a-0001.png"] = some ("a-", 4) := by decide
example : matchNum "a" "A100.png" = some 100 := by decide
example : matchNum "a" "ab100.png" = none := by decide
example : pathSuffix "frame-001.PNG" = ".PNG" := by decide
example : pathSuffix ".png" = "" := by decide
example : pathSuffix "a." = "" := by decide
example : build_pattern "clip_" 3 = "clip_%03d.png" := by decide
example : gaps [3, 4, 5, 7, 8] = [7] := by decide
example : gapWarning [1, 2, 3, 4] = false := by decide

/-! ### Helper lemmas about the pattern matchers -/

theorem isPngExt_head {e : List Char} (h : isPngExt e = true) : ∃ t, e = '.' :: t := by
  rcases e with _ | ⟨c1, _ | ⟨c2, _ | ⟨c3, _ | ⟨c4, _ | ⟨c5, t⟩⟩⟩⟩⟩ <;> simp [isPngExt] at h
  obtain ⟨⟨⟨h1, -⟩, -⟩, -⟩ := h
  subst h1
  exact ⟨[c2, c3, c4], rfl⟩

theorem dot_not_digit : Char.isDigit '.' = false := by decide

theorem drop_length_takeWhile {α : Type} (p : α → Bool) (l : List α) :
    l.drop (l.takeWhile p).length = l.dropWhile p := by
  induction l with
  | nil => rfl
  | cons a l ih =>
    by_cases h : p a = true
    · simp [List.takeWhile_cons, List.dropWhile_cons, h, ih]
    · simp [List.takeWhile_cons, List.dropWhile_cons, h]

theorem takeWhile_digits_append {d t : List Char}
    (hd : ∀ c ∈ d, c.isDigit = true) :
    (d ++ '.' :: t).takeWhile Char.isDigit = d := by
  rw [List.takeWhile_append_of_pos hd]
  simp [List.takeWhile_cons, dot_not_digit]

/-- If a string decomposes as nonempty digits followed by the extension, the
match attempt `(\d+)\.png$` at its start succeeds: the greedy digit run is
exactly the digit block and what follows is exactly the extension. -/
theorem pngCond_of_decomp {d e l : List Char} (hl : l = d ++ e) (hd : d ≠ [])
    (hdig : ∀ c ∈ d, c.isDigit = true) (hext : isPngExt e = true) :
    isPngExt (l.drop (l.takeWhile Char.isDigit).length) = true ∧
      l.takeWhile Char.isDigit ≠ [] := by
  obtain ⟨t, rfl⟩ := isPngExt_head hext
  subst hl
  have htw : (d ++ '.' :: t).takeWhile Char.isDigit = d := takeWhile_digits_append hdig
  refine ⟨?_, ?_⟩
  · rw [htw, List.drop_left]
    exact hext
  · rw [htw]
    exact hd

/-- Soundness of the model of `^(.*?)(\d+)\.png$`: a successful match yields
a decomposition prefix ++ digits ++ extension of the input, the digit run is
nonempty, and — non-greediness of `.*?` — the prefix is shortest among all
such decompositions. -/
theorem pngMatchAux_spec :
    ∀ (l acc p d : List Char), pngMatchAux acc l = some (p, d) →
      ∃ q e, p = acc.reverse ++ q ∧ l = q ++ d ++ e ∧ isPngExt e = true ∧
        d ≠ [] ∧ (∀ c ∈ d, c.isDigit = true) ∧
        ∀ q' d' e', l = q' ++ d' ++ e' → d' ≠ [] →
          (∀ c ∈ d', c.isDigit = true) → isPngExt e' = true → q.length ≤ q'.length := by
  intro l
  induction l with
  | nil => intro acc p d h; simp [pngMatchAux] at h
  | cons c cs ih =>
    intro acc p d h
    by_cases hc : isPngExt ((c :: cs).drop ((c :: cs).takeWhile Char.isDigit).length) = true ∧
        (c :: cs).takeWhile Char.isDigit ≠ []
    · rw [pngMatchAux, if_pos hc] at h
      simp only [Option.some.injEq, Prod.mk.injEq] at h
      obtain ⟨rfl, rfl⟩ := h
      refine ⟨[], (c :: cs).dropWhile Char.isDigit, by simp, ?_, ?_, hc.2, ?_, ?_⟩
      · simp [List.takeWhile_append_dropWhile]
      · rw [← drop_length_takeWhile Char.isDigit (c :: cs)]
        exact hc.1
      · intro x hx
        exact List.mem_takeWhile_imp hx
      · intro q' d' e' _ _ _ _
        exact Nat.zero_le _
    · rw [pngMatchAux, if_neg hc] at h
      by_cases hnl : c = '\n'
      · rw [if_pos hnl] at h
        cases h
      · rw [if_neg hnl] at h
        obtain ⟨q, e, hp, hcs, hext, hdne, hdig, hmin⟩ := ih (c :: acc) p d h
        refine ⟨c :: q, e, ?_, ?_, hext, hdne, hdig, ?_⟩
        · rw [hp]
          simp
        · rw [hcs]
          simp
        · intro q' d' e' heq hne hdig' hext'
          cases q' with
          | nil =>
            exfalso
            apply hc
            exact pngCond_of_decomp (by simpa using heq) hne hdig' hext'
          | cons c' q₁ =>
            have hcs' : cs = q₁ ++ d' ++ e' := by
              have := heq
              simp only [List.cons_append, List.cons.injEq] at this
              exact this.2
            have := hmin q₁ d' e' hcs' hne hdig' hext'
            simpa using Nat.succ_le_succ this

/-- `pngMatch` success reflected to the character-list matcher. -/
theorem pngMatch_eq_some {x p d : String} (h : pngMatch x = some (p, d)) :
    pngMatchAux [] x.data = some (p.data, d.data) := by
  unfold pngMatch at h
  cases haux : pngMatchAux [] x.data with
  | none => rw [haux] at h; cases h
  | some pd =>
    rw [haux] at h
    simp only [Option.map_some', Option.some.injEq, Prod.mk.injEq] at h
    obtain ⟨h1, h2⟩ := h
    rw [← h1, ← h2]

/-- First-match behaviour of the inference loop over an explicit split of
the scanned list. -/
theorem inferGo_first_match (l₁ : List String) (x : String) (l₂ : List String)
    (p d : String) (h₁ : ∀ y ∈ l₁, pngMatch y = none) (hx : pngMatch x = some (p, d)) :
    inferGo (l₁ ++ x :: l₂) = some (p, d.length) := by
  induction l₁ with
  | nil => simp [inferGo, hx]
  | cons y l ih =>
    have hy : pngMatch y = none := h₁ y (by simp)
    simp only [List.cons_append, inferGo, hy]
    exact ih (fun z hz => h₁ z (by simp [hz]))

/-- The inference loop fails exactly when every scanned name fails to match. -/
theorem inferGo_none_iff (l : List String) :
    inferGo l = none ↔ ∀ f ∈ l, pngMatch f = none := by
  induction l with
  | nil => simp [inferGo]
  | cons f rest ih =>
    cases hf : pngMatch f with
    | some pd => simp [inferGo, hf]
    | none => simp [inferGo, hf, ih]

/-- Characterisation of the model of `^{re.escape(prefix)}(\d+)\.png$`:
the match captures `d` exactly when the subject splits as a block that
matches the prefix case-insensitively (character by character), a nonempty
digit run `d` (greedy, hence ending right before the extension), and the
extension. -/
theorem matchDigitsAux_some_iff :
    ∀ (pl sl d : List Char),
      matchDigitsAux pl sl = some d ↔
        ∃ q e, sl = q ++ d ++ e ∧ List.Forall₂ (fun a b => ciCharEq a b = true) pl q ∧
          d ≠ [] ∧ (∀ c ∈ d, c.isDigit = true) ∧ isPngExt e = true := by
  intro pl
  induction pl with
  | nil =>
    intro sl d
    constructor
    · intro h
      by_cases hc : isPngExt (sl.drop (sl.takeWhile Char.isDigit).length) = true ∧
          sl.takeWhile Char.isDigit ≠ []
      · simp only [matchDigitsAux] at h
        rw [if_pos hc] at h
        injection h with h'
        subst h'
        refine ⟨[], sl.dropWhile Char.isDigit, ?_, List.Forall₂.nil, hc.2, ?_, ?_⟩
        · simp [List.takeWhile_append_dropWhile]
        · intro c hcm
          exact List.mem_takeWhile_imp hcm
        · rw [← drop_length_takeWhile Char.isDigit sl]
          exact hc.1
      · simp only [matchDigitsAux] at h
        rw [if_neg hc] at h
        cases h
    · rintro ⟨q, e, hsl, hf, hdne, hdig, hext⟩
      have hq : q = [] := List.forall₂_nil_left_iff.mp hf
      subst hq
      have hc := pngCond_of_decomp (l := sl) (by simpa using hsl) hdne hdig hext
      simp only [matchDigitsAux]
      rw [if_pos hc]
      obtain ⟨t, rfl⟩ := isPngExt_head hext
      have htw : sl.takeWhile Char.isDigit = d := by
        rw [show sl = d ++ '.' :: t by simpa using hsl]
        exact takeWhile_digits_append hdig
      rw [htw]
  | cons a ps ih =>
    intro sl d
    cases sl with
    | nil =>
      simp only [matchDigitsAux]
      constructor
      · intro h
        cases h
      · rintro ⟨q, e, hsl, hf, hdne, hdig, hext⟩
        obtain ⟨b, q', hab, hf', rfl⟩ := List.forall₂_cons_left_iff.mp hf
        simp at hsl
    | cons c cs =>
      constructor
      · intro h
        simp only [matchDigitsAux] at h
        by_cases hci : ciCharEq a c = true
        · rw [if_pos hci] at h
          obtain ⟨q, e, hcs, hf, hdne, hdig, hext⟩ := (ih cs d).mp h
          exact ⟨c :: q, e, by simp [hcs], List.Forall₂.cons hci hf, hdne, hdig, hext⟩
        · rw [if_neg hci] at h
          cases h
      · rintro ⟨q, e, hsl, hf, hdne, hdig, hext⟩
        obtain ⟨b, q', hab, hf', rfl⟩ := List.forall₂_cons_left_iff.mp hf
        simp only [List.cons_append, List.cons.injEq] at hsl
        obtain ⟨rfl, hrest⟩ := hsl
        simp only [matchDigitsAux]
        rw [if_pos hab]
        exact (ih cs d).mpr ⟨q', e, hrest, hf', hdne, hdig, hext⟩

/-- A decimal digit character has value at most 9. -/
theorem digitVal_le_nine {c : Char} (h : c.isDigit = true) : digitVal c ≤ 9 := by
  simp only [Char.isDigit, Bool.and_eq_true, decide_eq_true_eq, ge_iff_le,
    UInt32.le_def, BitVec.le_def] at h
  obtain ⟨h1, h2⟩ := h
  have e1 : ((48 : UInt32)).toBitVec.toNat = 48 := by decide
  have e2 : ((57 : UInt32)).toBitVec.toNat = 57 := by decide
  have e3 : ('0'.val.toBitVec.toNat) = 48 := by decide
  simp only [digitVal, Char.toNat, UInt32.toNat] at *
  omega

theorem digitsVal_foldl_lt :
    ∀ (d : List Char) (acc : Nat), (∀ c ∈ d, c.isDigit = true) →
      d.foldl (fun a c => 10 * a + digitVal c) acc < (acc + 1) * 10 ^ d.length := by
  intro d
  induction d with
  | nil =>
    intro acc _
    simp
  | cons c d ih =>
    intro acc hd
    have hc : digitVal c ≤ 9 := digitVal_le_nine (hd c (by simp))
    have h1 := ih (10 * acc + digitVal c) (fun x hx => hd x (by simp [hx]))
    simp only [List.foldl_cons, List.length_cons]
    refine lt_of_lt_of_le h1 ?_
    have h2 : 10 * acc + digitVal c + 1 ≤ (acc + 1) * 10 := by omega
    calc (10 * acc + digitVal c + 1) * 10 ^ d.length
        ≤ ((acc + 1) * 10) * 10 ^ d.length := Nat.mul_le_mul_right _ h2
      _ = (acc + 1) * 10 ^ (d.length + 1) := by ring

/-- The numeric value of a digit run is below `10 ^ (its width)`. -/
theorem digitsVal_lt {d : List Char} (hd : ∀ c ∈ d, c.isDigit = true) :
    digitsVal d < 10 ^ d.length := by
  have h := digitsVal_foldl_lt d 0 hd
  simpa [digitsVal] using h

/-- A number below `10 ^ k` (with `k ≥ 1`) has at most `k` decimal digits. -/
theorem digitCount_le_of_lt_pow {n k : Nat} (hk : 1 ≤ k) (h : n < 10 ^ k) :
    digitCount n ≤ k := by
  by_cases hn : n = 0
  · simpa [digitCount, hn] using hk
  · have hlog := Nat.log_lt_of_lt_pow hn h
    simp only [digitCount, hn, if_false]
    omega

/-! ### Control-flow lemmas about the pipeline -/

theorem runMain_notFound (args : Args) (env : Env) (h : env.indirExists = false) :
    runMain args env = ⟨RunResult.notFound, false, 0, false, false⟩ := by
  unfold runMain
  rw [if_pos h]

theorem runMain_empty (args : Args) (env : Env) (h1 : env.indirExists = true)
    (h2 : pngsOf env = []) :
    runMain args env = ⟨RunResult.emptyInput, false, 0, false, false⟩ := by
  unfold runMain
  rw [if_neg (by simp [h1]), if_pos h2]

theorem runMain_toolMissing (args : Args) (env : Env) (h1 : env.indirExists = true)
    (h2 : pngsOf env ≠ []) (h3 : env.ffmpegPresent = false) :
    runMain args env = ⟨RunResult.toolMissing, true, 0, false, false⟩ := by
  unfold runMain
  rw [if_neg (by simp [h1]), if_neg h2, if_pos h3]

theorem runMain_inferenceError (args : Args) (env : Env) (h1 : env.indirExists = true)
    (h2 : pngsOf env ≠ []) (h3 : env.ffmpegPresent = true)
    (hs : resolveScheme args (pngsOf env) = none) :
    runMain args env = ⟨RunResult.inferenceError, true, 0, false, false⟩ := by
  unfold runMain
  rw [if_neg (by simp [h1]), if_neg h2, if_neg (by simp [h3]), hs]

theorem runMain_encode (args : Args) (env : Env) (h1 : env.indirExists = true)
    (h2 : pngsOf env ≠ []) (h3 : env.ffmpegPresent = true)
    (pp : String × Nat) (hs : resolveScheme args (pngsOf env) = some pp) :
    runMain args env =
      encodeStage env (gapWarning (validate_and_extract_sequence pp.1 (pngsOf env))) := by
  unfold runMain
  rw [if_neg (by simp [h1]), if_neg h2, if_neg (by simp [h3]), hs]

/-- Every run either stops at one of the four early exits or reaches the
encoder stage with some resolved scheme. -/
theorem runMain_split (args : Args) (env : Env) :
    runMain args env = ⟨RunResult.notFound, false, 0, false, false⟩ ∨
    runMain args env = ⟨RunResult.emptyInput, false, 0, false, false⟩ ∨
    runMain args env = ⟨RunResult.toolMissing, true, 0, false, false⟩ ∨
    runMain args env = ⟨RunResult.inferenceError, true, 0, false, false⟩ ∨
    ∃ pp, resolveScheme args (pngsOf env) = some pp ∧
      runMain args env =
        encodeStage env (gapWarning (validate_and_extract_sequence pp.1 (pngsOf env))) := by
  by_cases h1 : env.indirExists = false
  · exact Or.inl (runMain_notFound args env h1)
  · have h1' : env.indirExists = true := by
      revert h1
      cases env.indirExists <;> simp
    by_cases h2 : pngsOf env = []
    · exact Or.inr (Or.inl (runMain_empty args env h1' h2))
    · by_cases h3 : env.ffmpegPresent = false
      · exact Or.inr (Or.inr (Or.inl (runMain_toolMissing args env h1' h2 h3)))
      · have h3' : env.ffmpegPresent = true := by
          revert h3
          cases env.ffmpegPresent <;> simp
        cases hs : resolveScheme args (pngsOf env) with
        | none =>
          exact Or.inr (Or.inr (Or.inr (Or.inl (runMain_inferenceError args env h1' h2 h3' hs))))
        | some pp =>
          exact Or.inr (Or.inr (Or.inr (Or.inr ⟨pp, rfl, runMain_encode args env h1' h2 h3' pp hs⟩)))

theorem encodeStage_encoderRuns (env : Env) (w : Bool) :
    (encodeStage env w).encoderRuns = 1 := by
  unfold encodeStage
  split
  · rfl
  · split <;> rfl

theorem encodeStage_exit_nonzero (env : Env) (w : Bool) (h : env.encExit ≠ 0) :
    encodeStage env w = ⟨RunResult.encodeError env.encExit, true, 1, w, false⟩ := by
  unfold encodeStage
  rw [if_pos h]

theorem encodeStage_exit_zero_ok (env : Env) (w : Bool) (h : env.encExit = 0)
    (hout : env.outExists = true ∧ 0 < env.outSize) :
    encodeStage env w = ⟨RunResult.ok, true, 1, w, true⟩ := by
  unfold encodeStage
  rw [if_neg (by simp [h]), if_pos hout]

theorem encodeStage_exit_zero_bad (env : Env) (w : Bool) (h : env.encExit = 0)
    (hout : ¬ (env.outExists = true ∧ 0 < env.outSize)) :
    encodeStage env w = ⟨RunResult.outputVerificationError, true, 1, w, false⟩ := by
  unfold encodeStage
  rw [if_neg (by simp [h]), if_neg hout]

/-- Nonemptiness of the gap list phrased as existence of a bad adjacent pair. -/
theorem gaps_ne_nil_iff (nums : List Nat) :
    gaps nums ≠ [] ↔ ∃ ab ∈ nums.zip nums.tail, ab.2 ≠ ab.1 + 1 := by
  unfold gaps gapPairs
  rw [Ne, List.map_eq_nil_iff, List.filter_eq_nil_iff]
  push_neg
  simp

/-! ### Claim theorems -/

/-- C1: for every candidate list, `infer_scheme` applies the pattern
(non-greedy prefix)(one or more decimal digits) immediately followed by
`.png` (case-insensitive) to the candidates in lexicographically sorted
order and returns the captured prefix and the digit count of the FIRST
matching candidate; the match decomposes that candidate as
prefix ++ digits ++ extension with the shortest possible prefix
(non-greedy), not the widest digit run and not any majority scheme. -/
theorem C1_infer_scheme_first_match
    (files l₁ l₂ : List String) (x p d : String)
    (hsort : List.insertionSort strLe files = l₁ ++ x :: l₂)
    (h₁ : ∀ y ∈ l₁, pngMatch y = none)
    (hx : pngMatch x = some (p, d)) :
    infer_scheme files = some (p, d.length) ∧
      ∃ e, x.data = p.data ++ d.data ++ e ∧ isPngExt e = true ∧ d.data ≠ [] ∧
        (∀ c ∈ d.data, c.isDigit = true) ∧
        ∀ q' d' e', x.data = q' ++ d' ++ e' → d' ≠ [] →
          (∀ c ∈ d', c.isDigit = true) → isPngExt e' = true →
            p.data.length ≤ q'.length := by
  constructor
  · unfold infer_scheme
    rw [hsort]
    exact inferGo_first_match l₁ x l₂ p d h₁ hx
  · have haux := pngMatch_eq_some hx
    obtain ⟨q, e, hp, hxd, hext, hdne, hdig, hmin⟩ :=
      pngMatchAux_spec x.data [] p.data d.data haux
    have hq : p.data = q := by simpa using hp
    refine ⟨e, ?_, hext, hdne, hdig, ?_⟩
    · rw [hq]
      exact hxd
    · intro q' d' e' ha hb hc hd
      rw [hq]
      exact hmin q' d' e' ha hb hc hd

theorem C1_witness :
    infer_scheme ["b-02.png", "a-0001.png"] = some ("a-", 4) := by
  have h := C1_infer_scheme_first_match ["b-02.png", "a-0001.png"] []
      ["b-02.png"] "a-0001.png" "a-" "0001" (by decide) (by simp) (by decide)
  exact h.1

/-- C8: `infer_scheme` fails (modelling the fatal `RuntimeError` that asks
the caller to pass prefix and padding explicitly) exactly when no candidate
matches the `(prefix)(digits).png` pattern, and in no other case. -/
theorem C8_infer_scheme_none_iff (files : List String) :
    infer_scheme files = none ↔ ∀ f ∈ files, pngMatch f = none := by
  unfold infer_scheme
  rw [inferGo_none_iff]
  constructor
  · intro h f hf
    exact h f ((List.perm_insertionSort strLe files).mem_iff.mpr hf)
  · intro h f hf
    exact h f ((List.perm_insertionSort strLe files).mem_iff.mp hf)

theorem C8_witness : infer_scheme ["stillimage.png"] = none :=
  (C8_infer_scheme_none_iff ["stillimage.png"]).mpr (by decide)

/-- C9: on candidates `clip_001.png ... clip_010.png`, `infer_scheme`
yields prefix `clip_` with padding width 3, and `build_pattern` on that
scheme yields `clip_%03d.png`. -/
theorem C9_clip_example :
    infer_scheme ["clip_001.png", "clip_002.png", "clip_003.png", "clip_004.png",
        "clip_005.png", "clip_006.png", "clip_007.png", "clip_008.png",
        "clip_009.png", "clip_010.png"] = some ("clip_", 3) ∧
      build_pattern "clip_" 3 = "clip_%03d.png" := by
  exact ⟨by decide, by decide⟩

/-- C10: the explicitly supplied prefix/padding take effect only when BOTH
are supplied; if exactly one of them (or neither) is given, automatic
inference runs for both and the supplied value is discarded. -/
theorem C10_explicit_only_if_both (pngs : List String) (pfx : String) (pad : Nat) :
    resolveScheme ⟨some pfx, none⟩ pngs = infer_scheme pngs ∧
      resolveScheme ⟨none, some pad⟩ pngs = infer_scheme pngs ∧
      resolveScheme ⟨none, none⟩ pngs = infer_scheme pngs ∧
      resolveScheme ⟨some pfx, some pad⟩ pngs = some (pfx, pad) := by
  refine ⟨?_, ?_, ?_, ?_⟩ <;> simp [resolveScheme]

/-- C3: the gap warning is emitted iff the sorted sequence has at least two
integers and some adjacent pair differs by other than exactly 1; on
`[3,4,5,7,8]` exactly the single gap between 5 and 7 is flagged, on
`[1,2,3,4]` no warning is reported; and the warning is non-fatal — any run
that printed it still executed the encoder. -/
theorem C3_gap_detection :
    (∀ nums : List Nat,
        gapWarning nums = true ↔
          2 ≤ nums.length ∧ ∃ ab ∈ nums.zip nums.tail, ab.2 ≠ ab.1 + 1) ∧
      gapPairs [3, 4, 5, 7, 8] = [(5, 7)] ∧
      gaps [3, 4, 5, 7, 8] = [7] ∧
      gapWarning [3, 4, 5, 7, 8] = true ∧
      gapWarning [1, 2, 3, 4] = false ∧
      ∀ args env, (runMain args env).warnedGaps = true →
        (runMain args env).encoderRuns = 1 := by
  refine ⟨?_, by decide, by decide, by decide, by decide, ?_⟩
  · intro nums
    unfold gapWarning
    by_cases h2 : 2 ≤ nums.length
    · rw [if_pos h2]
      simp only [decide_eq_true_eq]
      rw [gaps_ne_nil_iff]
      constructor
      · intro h
        exact ⟨h2, h⟩
      · intro h
        exact h.2
    · rw [if_neg h2]
      constructor
      · intro h
        cases h
      · intro h
        exact absurd h.1 h2
  · intro args env h
    rcases runMain_split args env with hr | hr | hr | hr | ⟨pp, _, hr⟩ <;> rw [hr] at h ⊢
    · cases h
    · cases h
    · cases h
    · cases h
    · exact encodeStage_encoderRuns env _

theorem C3_witness :
    (runMain ⟨none, none⟩
        ⟨true, ["f3.png", "f4.png", "f5.png", "f7.png", "f8.png"], true, 0, true, 9⟩).encoderRuns
      = 1 := by
  exact C3_gap_detection.2.2.2.2.2 ⟨none, none⟩
    ⟨true, ["f3.png", "f4.png", "f5.png", "f7.png", "f8.png"], true, 0, true, 9⟩ (by decide)

/-- C4: with the encoder exiting zero, the run fails with
`OutputVerificationError` exactly when it reached the encoder but the
declared output is missing or empty, and the `[OK]` success message is
printed exactly when the encoder ran and the output exists with size
strictly greater than zero. -/
theorem C4_output_verification (args : Args) (env : Env) (henc : env.encExit = 0) :
    ((runMain args env).result = RunResult.outputVerificationError ↔
      (runMain args env).encoderRuns = 1 ∧ ¬ (env.outExists = true ∧ 0 < env.outSize)) ∧
    ((runMain args env).successPrinted = true ↔
      (runMain args env).encoderRuns = 1 ∧ env.outExists = true ∧ 0 < env.outSize) := by
  rcases runMain_split args env with hr | hr | hr | hr | ⟨pp, _, hr⟩ <;> rw [hr]
  · simp
  · simp
  · simp
  · simp
  · by_cases hout : env.outExists = true ∧ 0 < env.outSize
    · rw [encodeStage_exit_zero_ok env _ henc hout]
      simp [hout]
    · rw [encodeStage_exit_zero_bad env _ henc hout]
      simp [hout]

theorem C4_witness :
    (runMain ⟨none, none⟩ ⟨true, ["f1.png"], true, 0, false, 0⟩).result =
      RunResult.outputVerificationError := by
  have h := C4_output_verification ⟨none, none⟩ ⟨true, ["f1.png"], true, 0, false, 0⟩ rfl
  exact h.1.mpr (by decide)

/-- C5: if the run reaches the encoder and the encoder exits non-zero, the
run fails with `EncodeError` carrying exactly that exit code, prints no
success message, and runs the encoder exactly once (no retry) — regardless
of the state of the output file. -/
theorem C5_encode_error (args : Args) (env : Env)
    (h1 : env.indirExists = true) (h2 : pngsOf env ≠ [])
    (h3 : env.ffmpegPresent = true) (pp : String × Nat)
    (hs : resolveScheme args (pngsOf env) = some pp)
    (henc : env.encExit ≠ 0) :
    (runMain args env).result = RunResult.encodeError env.encExit ∧
      (runMain args env).successPrinted = false ∧
      (runMain args env).encoderRuns = 1 := by
  rw [runMain_encode args env h1 h2 h3 pp hs, encodeStage_exit_nonzero env _ henc]
  exact ⟨rfl, rfl, rfl⟩

theorem C5_witness :
    (runMain ⟨none, none⟩ ⟨true, ["f1.png"], true, 3, true, 5⟩).result =
      RunResult.encodeError 3 := by
  have h := C5_encode_error ⟨none, none⟩ ⟨true, ["f1.png"], true, 3, true, 5⟩ rfl
      (by decide) rfl ("f", 1) (by decide) (by decide)
  exact h.1

/-- C6: if the input directory exists but none of its entries has an
extension that case-insensitively equals `.png`, the run fails with
`EmptyInputError`; the external encoder is neither presence-checked nor
executed after this failure. -/
theorem C6_empty_input (args : Args) (env : Env) (h1 : env.indirExists = true)
    (hno : ∀ f ∈ env.entries, ¬ toLowerStr (pathSuffix f) = ".png") :
    (runMain args env).result = RunResult.emptyInput ∧
      (runMain args env).ffmpegChecked = false ∧
      (runMain args env).encoderRuns = 0 := by
  have h2 : pngsOf env = [] := by
    unfold pngsOf
    have hf : env.entries.filter (fun f => decide (toLowerStr (pathSuffix f) = ".png")) = [] := by
      rw [List.filter_eq_nil_iff]
      intro a ha
      simp [hno a ha]
    rw [hf]
    rfl
  rw [runMain_empty args env h1 h2]
  exact ⟨rfl, rfl, rfl⟩

theorem C6_witness :
    (runMain ⟨none, none⟩ ⟨true, ["readme.txt", "frame-001.jpg"], true, 0, true, 1⟩).result =
      RunResult.emptyInput := by
  have h := C6_empty_input ⟨none, none⟩
      ⟨true, ["readme.txt", "frame-001.jpg"], true, 0, true, 1⟩ rfl (by decide)
  exact h.1

/-- C7: the sequence extraction re-matches every enumerated candidate
against the anchored case-insensitive pattern made of the exact (escaped)
prefix, a nonempty digit run and the extension; non-matching candidates
are silently excluded, the integer value of the digit run is extracted
for every match, and the resulting integer list is sorted ascending. -/
theorem C7_validate_extract (pfx : String) (pngs : List String) :
    List.Sorted (fun a b : Nat => a ≤ b) (validate_and_extract_sequence pfx pngs) ∧
      (∀ n : Nat, n ∈ validate_and_extract_sequence pfx pngs ↔
        ∃ f ∈ pngs, matchNum pfx f = some n) ∧
      (∀ (s : String) (n : Nat), matchNum pfx s = some n ↔
        ∃ q d e, s.data = q ++ d ++ e ∧
          List.Forall₂ (fun a b => ciCharEq a b = true) pfx.data q ∧
          d ≠ [] ∧ (∀ c ∈ d, c.isDigit = true) ∧ isPngExt e = true ∧
          n = digitsVal d) := by
  refine ⟨?_, ?_, ?_⟩
  · exact List.sorted_insertionSort _ _
  · intro n
    unfold validate_and_extract_sequence
    rw [List.mem_insertionSort, List.mem_filterMap]
  · intro s n
    unfold matchNum matchDigits
    constructor
    · intro h
      obtain ⟨d, hd, hn⟩ := Option.map_eq_some'.mp h
      obtain ⟨q, e, h1, h2, h3, h4, h5⟩ := (matchDigitsAux_some_iff pfx.data s.data d).mp hd
      exact ⟨q, d, e, h1, h2, h3, h4, h5, hn.symm⟩
    · rintro ⟨q, d, e, h1, h2, h3, h4, h5, rfl⟩
      rw [(matchDigitsAux_some_iff pfx.data s.data d).mpr ⟨q, e, h1, h2, h3, h4, h5⟩]
      rfl

theorem C7_witness :
    List.Sorted (fun a b : Nat => a ≤ b)
        (validate_and_extract_sequence "frame-" ["frame-002.png", "frame-001.png"]) ∧
      1 ∈ validate_and_extract_sequence "frame-" ["frame-002.png", "frame-001.png"] := by
  refine ⟨(C7_validate_extract "frame-" ["frame-002.png", "frame-001.png"]).1, ?_⟩
  exact ((C7_validate_extract "frame-" ["frame-002.png", "frame-001.png"]).2.1 1).mpr
    ⟨"frame-001.png", by simp, by decide⟩

/-- C2 counterexample: on the candidate files `a1.png` and `a100.png`, the
inferred scheme is prefix `a` with padding width 1, yet the observed frame
number 100 has 3 decimal digits, so the claimed invariant
"padding width ≥ number of digits of the largest observed frame number"
fails. -/
theorem C2_counterexample :
    infer_scheme ["a1.png", "a100.png"] = some ("a", 1) ∧
      validate_and_extract_sequence "a" ["a1.png", "a100.png"] = [1, 100] ∧
      digitCount 100 = 3 ∧ ¬ digitCount 100 ≤ 1 := by
  have hlog : Nat.log 10 100 = 2 := Nat.log_eq_of_pow_le_of_lt_pow (by norm_num) (by norm_num)
  refine ⟨by decide, by decide, ?_, ?_⟩
  · simp [digitCount, hlog]
  · simp [digitCount, hlog]

/-- C2 (amended): for a scheme produced by `infer_scheme`, the prefix
precedes (case-insensitively, as the re-match specifies) the numeric
component of every matched file; and PROVIDED every matched file's digit
run has length exactly the padding width (a fixed-width naming scheme),
the padding width is at least the number of decimal digits of every
observed frame number.  Without the fixed-width proviso the padding bound
is refuted by `C2_counterexample`. -/
theorem C2_amended_invariant (files : List String) (pfx : String) (pad : Nat)
    (hinf : infer_scheme files = some (pfx, pad)) :
    (∀ f ∈ files, ∀ d, matchDigits pfx f = some d →
      ∃ q e, f.data = q ++ d ++ e ∧
        List.Forall₂ (fun a b => ciCharEq a b = true) pfx.data q ∧
        d ≠ [] ∧ (∀ c ∈ d, c.isDigit = true) ∧ isPngExt e = true) ∧
    ((∀ f ∈ files, ∀ d, matchDigits pfx f = some d → d.length = pad) →
      ∀ n ∈ validate_and_extract_sequence pfx files, digitCount n ≤ pad) := by
  constructor
  · intro f _ d hd
    exact (matchDigitsAux_some_iff pfx.data f.data d).mp hd
  · intro hw n hn
    unfold validate_and_extract_sequence at hn
    rw [List.mem_insertionSort, List.mem_filterMap] at hn
    obtain ⟨f, hf, hfn⟩ := hn
    unfold matchNum at hfn
    obtain ⟨d, hd, hnd⟩ := Option.map_eq_some'.mp hfn
    obtain ⟨q, e, -, -, hdne, hdig, -⟩ := (matchDigitsAux_some_iff pfx.data f.data d).mp hd
    have hlen : d.length = pad := hw f hf d hd
    have hlt : digitsVal d < 10 ^ pad := by
      rw [← hlen]
      exact digitsVal_lt hdig
    have hpad1 : 1 ≤ pad := by
      rw [← hlen]
      rcases d with _ | ⟨c, d⟩
      · exact absurd rfl hdne
      · simp
    rw [← hnd]
    exact digitCount_le_of_lt_pow hpad1 hlt

theorem C2_witness : digitCount 2 ≤ 3 := by
  have h := C2_amended_invariant ["clip_001.png", "clip_002.png"] "clip_" 3 (by decide)
  have hw : ∀ f ∈ (["clip_001.png", "clip_002.png"] : List String), ∀ d,
      matchDigits "clip_" f = some d → d.length = 3 := by
    intro f hf d hd
    rcases List.mem_cons.mp hf with rfl | hf2
    · have hval : matchDigits "clip_" "clip_001.png" = some ['0', '0', '1'] := by decide
      rw [hval] at hd
      cases hd
      rfl
    · rcases List.mem_cons.mp hf2 with rfl | hf3
      · have hval : matchDigits "clip_" "clip_002.png" = some ['0', '0', '2'] := by decide
        rw [hval] at hd
        cases hd
        rfl
      · simp at hf3
  exact h.2 hw 2 (by decide)
